import Mathlib

/-!
Verification of the astrodata core against its natural-language
specification.  Each section embeds one part of the source
(`astrodata/core.py`, `astrodata/fits.py`, `astrodata/nddata.py`) as
executable Lean definitions and proves or refutes the corresponding
spec claims.
-/

namespace Astrodata

/-! ## Tag resolution engine (`astrodata/core.py`, `AstroData._process_tags`)

A tag rule contributes a `TagSet` (named tuple in `astrodata/utils.py`):
five sets of tag strings.  `_process_tags` collects the class's tag
methods via `inspect.getmembers` (which returns members sorted by
method name), drops contributions whose `add`, `remove` and `blocks`
are all empty, runs three successive stable sorts, and folds an
accumulation step over the resulting order. -/

/-- The `TagSet` named tuple of `astrodata/utils.py`: `add`, `remove`,
`blocked_by`, `blocks`, `if_present`, each a set of tag strings. -/
structure TagSet where
  add : Finset String
  remove : Finset String
  blocked_by : Finset String
  blocks : Finset String
  if_present : Finset String
deriving DecidableEq

/-- One registered tag rule of a class: the tag method's name (as yielded
by `inspect.getmembers`) paired with the `TagSet` it returns. -/
abbrev TagRule := String × TagSet

/-- The collection filter of `_process_tags`: a contribution is kept when
`ts.add or ts.remove or ts.blocks` is truthy, i.e. at least one of the
three sets is non-empty. -/
def keeps (ts : TagSet) : Bool :=
  decide (ts.add ≠ ∅) || decide (ts.remove ≠ ∅) || decide (ts.blocks ≠ ∅)

/-- `inspect.getmembers` returns the `(name, method)` pairs sorted by
name; this is the relation of that preliminary sort.  Python compares
strings lexicographically by code point, which is the lexicographic
order on the character lists. -/
def nameLE (a b : TagRule) : Prop := a.1.data ≤ b.1.data

instance : DecidableRel nameLE := fun a b =>
  inferInstanceAs (Decidable (a.1.data ≤ b.1.data))

instance : IsTotal TagRule nameLE := ⟨fun a b => le_total a.1.data b.1.data⟩

instance : IsTrans TagRule nameLE := ⟨fun _ _ _ h h' => le_trans h h'⟩

/-- First sort of `_process_tags`:
`sorted(results, key=lambda x: len(x.remove) + len(x.blocks), reverse=True)`.
A stable descending sort by a key is a stable sort by the reversed
key comparison, so ties keep the incoming order. -/
def subLenGE (a b : TagRule) : Prop :=
  b.2.remove.card + b.2.blocks.card ≤ a.2.remove.card + a.2.blocks.card

instance : DecidableRel subLenGE := fun a b =>
  inferInstanceAs (Decidable (_ ≤ _))

instance : IsTotal TagRule subLenGE := ⟨fun a b => (le_total _ _).symm⟩

instance : IsTrans TagRule subLenGE := ⟨fun _ _ _ h h' => le_trans h' h⟩

/-- Second sort: `sorted(results, key=lambda x: len(x.blocked_by))`. -/
def blockedByLE (a b : TagRule) : Prop :=
  a.2.blocked_by.card ≤ b.2.blocked_by.card

instance : DecidableRel blockedByLE := fun a b =>
  inferInstanceAs (Decidable (_ ≤ _))

instance : IsTotal TagRule blockedByLE := ⟨fun a b => le_total _ _⟩

instance : IsTrans TagRule blockedByLE := ⟨fun _ _ _ h h' => le_trans h h'⟩

/-- Third sort: `sorted(results, key=lambda x: len(x.if_present))`. -/
def ifPresentLE (a b : TagRule) : Prop :=
  a.2.if_present.card ≤ b.2.if_present.card

instance : DecidableRel ifPresentLE := fun a b =>
  inferInstanceAs (Decidable (_ ≤ _))

instance : IsTotal TagRule ifPresentLE := ⟨fun a b => le_total _ _⟩

instance : IsTrans TagRule ifPresentLE := ⟨fun _ _ _ h h' => le_trans h h'⟩

/-- The evaluation order built by `_process_tags`: members collected in
name order (`inspect.getmembers`), contributions filtered for
non-emptiness, then the three successive stable sorts of the source.
`List.insertionSort` inserts an element before the first strictly
larger one, so equal keys keep their incoming order, matching the
stability of Python's `sorted`. -/
def process_order (rules : List TagRule) : List TagRule :=
  List.insertionSort ifPresentLE
    (List.insertionSort blockedByLE
      (List.insertionSort subLenGE
        ((List.insertionSort nameLE rules).filter (fun r => keeps r.2))))

/-- The spec's version of the first sort key: descending by the
cardinality of the *union* `remove ∪ blocks` (the source sums the two
cardinalities instead). -/
def specUnionGE (a b : TagRule) : Prop :=
  (b.2.remove ∪ b.2.blocks).card ≤ (a.2.remove ∪ a.2.blocks).card

instance : DecidableRel specUnionGE := fun a b =>
  inferInstanceAs (Decidable (_ ≤ _))

/-- The evaluation order as the spec describes it: same pipeline as
`process_order` but keyed on `|remove ∪ blocks|` in the first sort. -/
def spec_union_order (rules : List TagRule) : List TagRule :=
  List.insertionSort ifPresentLE
    (List.insertionSort blockedByLE
      (List.insertionSort specUnionGE
        ((List.insertionSort nameLE rules).filter (fun r => keeps r.2))))

/-- The running state of the accumulation loop of `_process_tags`:
confirmed tags, pending removals, blocked tags. -/
structure TagState where
  tags : Finset String
  removals : Finset String
  blocked : Finset String
deriving DecidableEq

/-- One iteration of the accumulation loop of `_process_tags`, translated
clause by clause; the `len`-based tests mirror the source
(`len(tags & is_present) != len(is_present)` and
`len(tags & blocked_by) + len(plus & blocked) == 0`), and
`removals` is updated before `add` is merged, as in the source. -/
def tagStep (s : TagState) (r : TagRule) : TagState :=
  let ts := r.2
  if ts.if_present ≠ ∅ ∧ (s.tags ∩ ts.if_present).card ≠ ts.if_present.card then
    s
  else if (s.tags ∩ ts.blocked_by).card + (ts.add ∩ s.blocked).card = 0 then
    let removals := s.removals ∪ ts.remove
    { tags := s.tags ∪ (ts.add \ removals)
      removals := removals
      blocked := s.blocked ∪ ts.blocks }
  else
    s

/-- `AstroData._process_tags`: fold the accumulation step over the
evaluation order, starting from three empty sets, and return the
confirmed tags. -/
def process_tags (rules : List TagRule) : Finset String :=
  ((process_order rules).foldl tagStep ⟨∅, ∅, ∅⟩).tags

/-- The skip condition as the spec words it: `if_present` not a subset of
the confirmed tags, or confirmed tags intersect `blocked_by`, or `add`
intersects the blocked set. -/
def skipSpec (s : TagState) (ts : TagSet) : Prop :=
  ¬ ts.if_present ⊆ s.tags ∨ (s.tags ∩ ts.blocked_by).Nonempty ∨
    (ts.add ∩ s.blocked).Nonempty

instance : ∀ s ts, Decidable (skipSpec s ts) := fun s ts =>
  inferInstanceAs (Decidable (_ ∨ _ ∨ _))

/-- The merge the spec describes for a non-skipped rule: `remove` joins
the pending removals, `add` minus the (updated) pending removals joins
the confirmed tags, `blocks` joins the blocked set. -/
def mergeSpec (s : TagState) (ts : TagSet) : TagState :=
  { tags := s.tags ∪ (ts.add \ (s.removals ∪ ts.remove))
    removals := s.removals ∪ ts.remove
    blocked := s.blocked ∪ ts.blocks }

/-- Strict name comparison on rules, used to show that the preliminary
name sort is canonical when the method names are distinct. -/
def nameLT (a b : TagRule) : Prop := a.1.data < b.1.data

instance : IsAntisymm TagRule nameLT :=
  ⟨fun _ _ h h' => absurd h' (lt_asymm h)⟩

theorem string_data_inj {s t : String} (h : s.data = t.data) : s = t := by
  cases s
  cases t
  exact congrArg String.mk h

/-- With pairwise-distinct method names (as is forced for the methods of
one Python class), sorting by name is canonical: any two permutations
of the same rules sort to the same list. -/
theorem insertionSort_nameLE_eq_of_perm {l₁ l₂ : List TagRule}
    (hp : l₁.Perm l₂) (hn : (l₁.map Prod.fst).Nodup) :
    List.insertionSort nameLE l₁ = List.insertionSort nameLE l₂ := by
  have p₁ := List.perm_insertionSort nameLE l₁
  have p₂ := List.perm_insertionSort nameLE l₂
  have hp' : (List.insertionSort nameLE l₁).Perm (List.insertionSort nameLE l₂) :=
    p₁.trans (hp.trans p₂.symm)
  have strict : ∀ l : List TagRule, (l.map Prod.fst).Nodup →
      (List.insertionSort nameLE l).Pairwise nameLT := by
    intro l hnd
    have hs : (List.insertionSort nameLE l).Pairwise nameLE :=
      List.sorted_insertionSort nameLE l
    have hmap : ((List.insertionSort nameLE l).map Prod.fst).Perm (l.map Prod.fst) :=
      (List.perm_insertionSort nameLE l).map Prod.fst
    have hnd' : ((List.insertionSort nameLE l).map Prod.fst).Nodup :=
      hmap.nodup_iff.mpr hnd
    have hne : (List.insertionSort nameLE l).Pairwise
        (fun a b : TagRule => a.1 ≠ b.1) :=
      List.pairwise_map.mp hnd'
    exact (hs.and hne).imp fun h =>
      lt_of_le_of_ne h.1 fun hd => h.2 (string_data_inj hd)
  have st₁ := strict l₁ hn
  have st₂ := strict l₂ ((hp.map Prod.fst).nodup_iff.mp hn)
  exact List.eq_of_perm_of_sorted hp' st₁ st₂

/-- With distinct method names, the whole evaluation order is a function
of the rule multiset only. -/
theorem process_order_eq_of_perm {l₁ l₂ : List TagRule}
    (hp : l₁.Perm l₂) (hn : (l₁.map Prod.fst).Nodup) :
    process_order l₁ = process_order l₂ := by
  unfold process_order
  rw [insertionSort_nameLE_eq_of_perm hp hn]

/-- C2, counterexample.  The spec says the first sort key is the
cardinality of the union `remove ∪ blocks`; the source sorts by
`len(remove) + len(blocks)`, which counts tags lying in both sets
twice.  For the rules below the union cardinalities are 1 and 2 (so
the spec's order puts rule "b" first) while the sums tie at 2 (so the
stable sort keeps the name order, rule "a" first): the two evaluation
orders differ. -/
theorem c2_sort_key_counterexample :
    process_order
        [("a", ⟨{"T1"}, {"R"}, ∅, {"R"}, ∅⟩),
         ("b", ⟨{"T2"}, ∅, ∅, {"P", "Q"}, ∅⟩)] ≠
      spec_union_order
        [("a", ⟨{"T1"}, {"R"}, ∅, {"R"}, ∅⟩),
         ("b", ⟨{"T2"}, ∅, ∅, {"P", "Q"}, ∅⟩)] := by
  decide

/-- C2, amended.  The tag-resolution engine evaluates rules in the order
produced by three successive stable sorts keyed (1) descending by
`|remove| + |blocks|` (the sum of the two cardinalities, not the
cardinality of their union), (2) ascending by `|blocked_by|`,
(3) ascending by `|if_present|`; since the rules of a class carry
pairwise-distinct method names and are pre-sorted by name, the
resulting order does not depend on the declaration order, and it is a
permutation of the kept (non-empty) rule contributions that is sorted
by `|if_present|`. -/
theorem c2_process_order_amended {l₁ l₂ : List TagRule}
    (hp : l₁.Perm l₂) (hn : (l₁.map Prod.fst).Nodup) :
    process_order l₁ = process_order l₂ ∧
      List.Sorted ifPresentLE (process_order l₁) ∧
      (process_order l₁).Perm
        ((List.insertionSort nameLE l₁).filter (fun r => keeps r.2)) := by
  refine ⟨process_order_eq_of_perm hp hn, ?_, ?_⟩
  · exact List.sorted_insertionSort ifPresentLE _
  · unfold process_order
    exact (List.perm_insertionSort ifPresentLE _).trans
      ((List.perm_insertionSort blockedByLE _).trans
        (List.perm_insertionSort subLenGE _))

/-- C2, witness: the amended theorem applied to a concrete two-rule class
in its two declaration orders. -/
theorem c2_process_order_amended_witness :
    process_order
        [("a", ⟨{"T1"}, ∅, {"X"}, ∅, ∅⟩), ("b", ⟨{"T2"}, ∅, ∅, ∅, ∅⟩)] =
      process_order
        [("b", ⟨{"T2"}, ∅, ∅, ∅, ∅⟩), ("a", ⟨{"T1"}, ∅, {"X"}, ∅, ∅⟩)] ∧
    List.Sorted ifPresentLE (process_order
        [("a", ⟨{"T1"}, ∅, {"X"}, ∅, ∅⟩), ("b", ⟨{"T2"}, ∅, ∅, ∅, ∅⟩)]) ∧
    (process_order
        [("a", ⟨{"T1"}, ∅, {"X"}, ∅, ∅⟩), ("b", ⟨{"T2"}, ∅, ∅, ∅, ∅⟩)]).Perm
      ((List.insertionSort nameLE
          [("a", ⟨{"T1"}, ∅, {"X"}, ∅, ∅⟩),
           ("b", ⟨{"T2"}, ∅, ∅, ∅, ∅⟩)]).filter (fun r => keeps r.2)) :=
  @c2_process_order_amended
    [("a", ⟨{"T1"}, ∅, {"X"}, ∅, ∅⟩), ("b", ⟨{"T2"}, ∅, ∅, ∅, ∅⟩)]
    [("b", ⟨{"T2"}, ∅, ∅, ∅, ∅⟩), ("a", ⟨{"T1"}, ∅, {"X"}, ∅, ∅⟩)]
    (by decide) (by decide)

/-- C3.  One accumulation step behaves exactly as specified: the rule is
skipped precisely when its `if_present` set is not contained in the
confirmed tags, or the confirmed tags meet its `blocked_by`, or its
`add` meets the blocked set; otherwise its `remove` joins the pending
removals, its `add` minus the pending removals joins the confirmed
tags, and its `blocks` joins the blocked set.  In particular a rule is
inert whenever a tag of its `blocked_by` is already confirmed, and
whenever a tag of its `if_present` is still absent. -/
theorem c3_accumulation_step (s : TagState) (r : TagRule) :
    (tagStep s r = if skipSpec s r.2 then s else mergeSpec s r.2) ∧
      (∀ x, x ∈ r.2.blocked_by → x ∈ s.tags → tagStep s r = s) ∧
      (∀ y, y ∈ r.2.if_present → y ∉ s.tags → tagStep s r = s) := by
  have hsub : (s.tags ∩ r.2.if_present).card = r.2.if_present.card ↔
      r.2.if_present ⊆ s.tags := by
    constructor
    · intro h
      exact Finset.inter_eq_right.mp
        (Finset.eq_of_subset_of_card_le Finset.inter_subset_right h.ge)
    · intro h
      rw [Finset.inter_eq_right.mpr h]
  have hmain : tagStep s r = if skipSpec s r.2 then s else mergeSpec s r.2 := by
    by_cases h1 : r.2.if_present ≠ ∅ ∧
        (s.tags ∩ r.2.if_present).card ≠ r.2.if_present.card
    · have hsk : skipSpec s r.2 := Or.inl fun hss => h1.2 (hsub.mpr hss)
      rw [tagStep, if_pos h1, if_pos hsk]
    · have hss : r.2.if_present ⊆ s.tags := by
        push_neg at h1
        by_cases h0 : r.2.if_present = ∅
        · rw [h0]
          exact Finset.empty_subset _
        · exact hsub.mp (h1 h0)
      by_cases h2 : (s.tags ∩ r.2.blocked_by).card +
          (r.2.add ∩ s.blocked).card = 0
      · have hbb : ¬(s.tags ∩ r.2.blocked_by).Nonempty := by
          rw [← Finset.card_pos]
          omega
        have hbl : ¬(r.2.add ∩ s.blocked).Nonempty := by
          rw [← Finset.card_pos]
          omega
        rw [tagStep, if_neg h1, if_pos h2,
          if_neg (by rintro (h | h | h) <;> [exact h hss; exact hbb h; exact hbl h])]
        rfl
      · have hsk : skipSpec s r.2 := by
          rcases Nat.eq_zero_or_pos (s.tags ∩ r.2.blocked_by).card with h | h
          · refine Or.inr (Or.inr (Finset.card_pos.mp ?_))
            omega
          · exact Or.inr (Or.inl (Finset.card_pos.mp h))
        rw [tagStep, if_neg h1, if_neg h2, if_pos hsk]
  refine ⟨hmain, ?_, ?_⟩
  · intro x hxb hxt
    have hsk : skipSpec s r.2 :=
      Or.inr (Or.inl ⟨x, Finset.mem_inter.mpr ⟨hxt, hxb⟩⟩)
    rw [hmain, if_pos hsk]
  · intro y hyp hyt
    have hsk : skipSpec s r.2 := Or.inl fun hss => hyt (hss hyp)
    rw [hmain, if_pos hsk]

/-- C3, witness: the step characterization evaluated on a concrete state
and rule; the rule is blocked by the already-confirmed tag "X", so the
state is unchanged. -/
theorem c3_accumulation_step_witness :
    tagStep ⟨{"X"}, ∅, ∅⟩ ("r", ⟨{"T"}, ∅, {"X"}, ∅, ∅⟩) = ⟨{"X"}, ∅, ∅⟩ :=
  (c3_accumulation_step ⟨{"X"}, ∅, ∅⟩ ("r", ⟨{"T"}, ∅, {"X"}, ∅, ∅⟩)).2.1
    "X" (by decide) (by decide)

/-- C4.  Tag resolution is independent of the declaration order of a
class's tag rules: two rule lists that are permutations of each other
(rules being the class's tag methods, hence carrying pairwise-distinct
names) resolve to the same final tag set.  This holds because
`inspect.getmembers` pre-sorts the members by name before the three
stable sorts run. -/
theorem c4_tag_resolution_order_independent {l₁ l₂ : List TagRule}
    (hp : l₁.Perm l₂) (hn : (l₁.map Prod.fst).Nodup) :
    process_tags l₁ = process_tags l₂ := by
  unfold process_tags
  rw [process_order_eq_of_perm hp hn]

/-- C4, witness: a concrete two-rule class resolved in both declaration
orders. -/
theorem c4_tag_resolution_order_independent_witness :
    process_tags
        [("a", ⟨{"T1"}, ∅, ∅, {"T2"}, ∅⟩), ("b", ⟨{"T2"}, ∅, ∅, ∅, ∅⟩)] =
      process_tags
        [("b", ⟨{"T2"}, ∅, ∅, ∅, ∅⟩), ("a", ⟨{"T1"}, ∅, ∅, {"T2"}, ∅⟩)] :=
  @c4_tag_resolution_order_independent
    [("a", ⟨{"T1"}, ∅, ∅, {"T2"}, ∅⟩), ("b", ⟨{"T2"}, ∅, ∅, ∅, ∅⟩)]
    [("b", ⟨{"T2"}, ∅, ∅, ∅, ∅⟩), ("a", ⟨{"T1"}, ∅, ∅, {"T2"}, ∅⟩)]
    (by decide) (by decide)

/-! ## Lazy payload dtype resolution (`astrodata/fits.py`, `FitsLazyLoadable.dtype`)

The property reads the HDU's original BITPIX/BSCALE/BZERO, astropy's
`_uint` flag and the EXTNAME.  BSCALE/BZERO are compared against the
integer constants 1, 0, -128 and `1 << (bits - 1)` only, so they are
modelled as integers. -/

/-- Numpy dtypes reachable from FITS dtype resolution. -/
inductive Dtype where
  | i8 | u8 | i16 | u16 | i32 | u32 | i64 | u64 | f16 | f32 | f64
deriving DecidableEq

/-- The header state of one lazily loaded HDU as consumed by
`FitsLazyLoadable.dtype`. -/
structure HduState where
  bitpix : Int
  bscale : Int
  bzero : Int
  uint : Bool
  extname : String
deriving DecidableEq

/-- `astropy.io.fits.BITPIX2DTYPE`: the storage dtype for each valid
BITPIX code; any other code raises `KeyError`, modelled as `none`. -/
def bitpix2dtype (b : Int) : Option Dtype :=
  if b = 8 then some .u8
  else if b = 16 then some .i16
  else if b = 32 then some .i32
  else if b = 64 then some .i64
  else if b = -32 then some .f32
  else if b = -64 then some .f64
  else none

/-- Modelled from the astropy collaborator
`_ImageBaseHDU._dtype_for_bitpix` (not part of this repository): the
dtype the payload must be converted to, or `none` when no conversion
applies. -/
def dtype_for_bitpix (h : HduState) : Option Dtype :=
  if h.uint ∧ h.bscale = 1 ∧ h.bitpix = 8 ∧ h.bzero = -128 then some .i8
  else if h.uint ∧ h.bscale = 1 ∧ h.bitpix = 16 ∧ h.bzero = 2 ^ 15 then
    some .u16
  else if h.uint ∧ h.bscale = 1 ∧ h.bitpix = 32 ∧ h.bzero = 2 ^ 31 then
    some .u32
  else if h.uint ∧ h.bscale = 1 ∧ h.bitpix = 64 ∧ h.bzero = 2 ^ 63 then
    some .u64
  else if h.bitpix > 16 then some .f64
  else if h.bitpix > 0 then some .f32
  else none

/-- `np.dtype(f"float{abs(bitpix)}")` for a negative BITPIX; numpy only
knows float16/32/64, anything else raises, modelled as `none`. -/
def float_of_bitpix (b : Int) : Option Dtype :=
  if b = -16 then some .f16
  else if b = -32 then some .f32
  else if b = -64 then some .f64
  else none

/-- Lines 476-488 of `FitsLazyLoadable.dtype`: the resolution before the
final uint16 override.  `Except Unit` models a raised exception
(`KeyError` from `BITPIX2DTYPE`, an unknown float size), `Option`
models Python's `None`. -/
def base_dtype (h : HduState) : Except Unit (Option Dtype) :=
  if h.bscale = 1 ∧ h.bzero = 0 then
    match bitpix2dtype h.bitpix with
    | some d => .ok (some d)
    | none => .error ()
  else
    match dtype_for_bitpix h with
    | some d => .ok (some d)
    | none =>
      if h.bitpix < 0 then
        match float_of_bitpix h.bitpix with
        | some d => .ok (some d)
        | none => .error ()
      else
        .ok none

/-- `FitsLazyLoadable.dtype`: the base resolution followed by the final
override `EXTNAME == "DQ" or (uint and bscale == 1 and bitpix == 8)`
(note the precedence: `A or B and C and D` binds as `A or (B and C
and D)`). -/
def fld_dtype (h : HduState) : Except Unit (Option Dtype) :=
  match base_dtype h with
  | .error e => .error e
  | .ok d1 =>
    .ok (if h.extname = "DQ" ∨ (h.uint ∧ h.bscale = 1 ∧ h.bitpix = 8) then
           some .u16
         else d1)

instance {ε α : Type} [DecidableEq ε] [DecidableEq α] :
    DecidableEq (Except ε α) := fun a b =>
  match a, b with
  | .error x, .error y =>
    if h : x = y then isTrue (by rw [h])
    else isFalse fun hh => h (by cases hh; rfl)
  | .error _, .ok _ => isFalse fun h => Except.noConfusion h
  | .ok _, .error _ => isFalse fun h => Except.noConfusion h
  | .ok x, .ok y =>
    if h : x = y then isTrue (by rw [h])
    else isFalse fun hh => h (by cases hh; rfl)

/-- Dtype resolution as C5 words it: only an ambiguous 8-bit payload
that carries the reserved mask role name resolves to uint16; every
payload not in that case resolves directly from bit depth and
signedness/float flags (the source's own non-quirk resolution). -/
def spec_dtype_claim (h : HduState) : Except Unit (Option Dtype) :=
  if h.extname = "DQ" ∧ h.uint ∧ h.bscale = 1 ∧ h.bitpix = 8 then
    .ok (some .u16)
  else
    base_dtype h

/-- Dtype resolution as amended, written as one flat case analysis over
the valid BITPIX codes: any payload named "DQ", or any ambiguous 8-bit
unsigned-convention payload with unit original scale, resolves to
uint16; floats keep their width; unscaled integers keep their storage
type; scaled integers follow the unsigned-integer convention when it
applies and otherwise scale to float32/float64 by width. -/
def spec_dtype_amended (h : HduState) : Dtype :=
  if h.extname = "DQ" ∨ (h.uint ∧ h.bscale = 1 ∧ h.bitpix = 8) then .u16
  else if h.bitpix = -32 then .f32
  else if h.bitpix = -64 then .f64
  else if h.bscale = 1 ∧ h.bzero = 0 then
    if h.bitpix = 8 then .u8
    else if h.bitpix = 16 then .i16
    else if h.bitpix = 32 then .i32
    else .i64
  else if h.uint ∧ h.bscale = 1 ∧ h.bzero = 2 ^ (h.bitpix - 1).toNat then
    if h.bitpix = 16 then .u16
    else if h.bitpix = 32 then .u32
    else .u64
  else if h.bitpix ≤ 16 then .f32
  else .f64

/-- C5, counterexample.  The claim confines the uint16 quirk to ambiguous
8-bit payloads named "DQ" and says every other payload resolves
directly from bit depth and flags; but the source's override fires for
*any* payload named "DQ": an unscaled 16-bit signed "DQ" payload
resolves to uint16, not to the int16 its bit depth and flags dictate. -/
theorem c5_dtype_counterexample :
    fld_dtype ⟨16, 1, 0, false, "DQ"⟩ ≠
      spec_dtype_claim ⟨16, 1, 0, false, "DQ"⟩ := by
  decide

set_option maxHeartbeats 800000 in
/-- C5, amended.  For every payload with a valid BITPIX code, dtype
resolution maps any payload named "DQ" — and any ambiguous 8-bit
unsigned-convention payload with unit original scale — to uint16, and
resolves every other payload directly from its declared bit depth and
its signedness/float flags. -/
theorem c5_dtype_resolution_amended (h : HduState)
    (hv : h.bitpix = 8 ∨ h.bitpix = 16 ∨ h.bitpix = 32 ∨ h.bitpix = 64 ∨
      h.bitpix = -32 ∨ h.bitpix = -64) :
    fld_dtype h = .ok (some (spec_dtype_amended h)) := by
  obtain ⟨bp, bs, bz, u, e⟩ := h
  simp only [HduState.bitpix] at hv
  rcases hv with hv | hv | hv | hv | hv | hv <;> subst hv <;>
    norm_num [fld_dtype, base_dtype, bitpix2dtype, dtype_for_bitpix,
      float_of_bitpix, spec_dtype_amended] <;>
    split_ifs <;> simp_all

/-- C5, witness: an ambiguous unscaled 8-bit unsigned payload (not named
"DQ") resolves to uint16. -/
theorem c5_dtype_resolution_amended_witness :
    fld_dtype ⟨8, 1, 0, true, "SCI"⟩ =
      .ok (some (spec_dtype_amended ⟨8, 1, 0, true, "SCI"⟩)) :=
  c5_dtype_resolution_amended ⟨8, 1, 0, true, "SCI"⟩ (by decide)

/-! ## Reader grouping (`astrodata/fits.py`, `read_fits`, lines 650-749)

The model covers the science-unit grouping loop of `read_fits` on the
prepared HDU list: the extensions after the primary HDU, each with an
EXTNAME, an EXTVER (the source defaults a missing EXTVER to -1) and an
opaque payload identifier that tells records apart. -/

/-- One raw extension record as `read_fits` consumes it. -/
structure ExtRecord where
  name : String
  ver : Int
  payload : Nat
deriving DecidableEq

/-- `skip_names = {DEFAULT_EXTENSION, "REFCAT", "MDF"}`. -/
def skip_names : List String := ["SCI", "REFCAT", "MDF"]

/-- `associated_extensions(ver)`: the records sharing the version whose
name is not in `skip_names`. -/
def associated_extensions (hdus : List ExtRecord) (v : Int) :
    List ExtRecord :=
  hdus.filter (fun h => decide (h.ver = v ∧ h.name ∉ skip_names))

/-- `sci_units`: the records with the default science role name. -/
def sci_units (hdus : List ExtRecord) : List ExtRecord :=
  hdus.filter (fun h => decide (h.name = "SCI"))

/-- One assembled structural unit: the science record, the associated
mask/uncertainty/wcs records (the loop assigns `parts[...]` for each
associated record in order, so the last one wins), and the remaining
associated records in order. -/
structure SciUnit where
  data : ExtRecord
  mask : Option ExtRecord
  uncertainty : Option ExtRecord
  wcs : Option ExtRecord
  other : List ExtRecord
deriving DecidableEq

/-- The `parts` assembly for one science record. -/
def make_unit (hdus : List ExtRecord) (h : ExtRecord) : SciUnit :=
  let assoc := associated_extensions hdus h.ver
  { data := h
    mask := (assoc.filter (fun x => decide (x.name = "DQ"))).getLast?
    uncertainty := (assoc.filter (fun x => decide (x.name = "VAR"))).getLast?
    wcs := (assoc.filter (fun x => decide (x.name = "WCS"))).getLast?
    other := assoc.filter
      (fun x => decide (x.name ≠ "DQ" ∧ x.name ≠ "VAR" ∧ x.name ≠ "WCS")) }

/-- The grouping loop: one `ad.append(nd, ...)` per science record, in
order — duplicates included. -/
def read_units (hdus : List ExtRecord) : List SciUnit :=
  (sci_units hdus).map (make_unit hdus)

/-- The warning accumulator of the loop: `seen_vers` starts empty, and a
"Multiple SCI extension" warning fires for a record exactly when
`ver > -1 and seen_vers.count(ver) == 1`. -/
def dup_warnings_go : List ExtRecord → List Int → List Int
  | [], _ => []
  | h :: rest, seen =>
    (if -1 < h.ver ∧ seen.count h.ver = 1 then [h.ver] else []) ++
      dup_warnings_go rest (seen ++ [h.ver])

/-- The versions warned about while grouping the science records. -/
def dup_warnings (hdus : List ExtRecord) : List Int :=
  dup_warnings_go (sci_units hdus) []

theorem mem_dup_warnings_go (v : Int) :
    ∀ (l : List ExtRecord) (seen : List Int),
      v ∈ dup_warnings_go l seen ↔
        (-1 < v ∧ seen.count v ≤ 1 ∧
          2 ≤ seen.count v + l.countP (fun r => decide (r.ver = v)))
  | [], seen => by
    simp [dup_warnings_go]
    omega
  | h :: rest, seen => by
    rw [dup_warnings_go, List.mem_append,
      mem_dup_warnings_go v rest (seen ++ [h.ver])]
    have e3 : (v ∈ if -1 < h.ver ∧ seen.count h.ver = 1 then [h.ver] else [])
        ↔ (v = h.ver ∧ -1 < h.ver ∧ seen.count h.ver = 1) := by
      split_ifs with hc
      · simp [hc]
      · simp [hc]
    rw [e3]
    by_cases hv : v = h.ver
    · subst hv
      have e1 : (seen ++ [h.ver]).count h.ver = seen.count h.ver + 1 := by
        simp
      have e2 : (h :: rest).countP (fun r => decide (r.ver = h.ver)) =
          rest.countP (fun r => decide (r.ver = h.ver)) + 1 := by
        simp [List.countP_cons]
      rw [e1, e2]
      omega
    · have e1 : (seen ++ [h.ver]).count v = seen.count v := by
        have : [h.ver].count v = 0 :=
          List.count_eq_zero.mpr (by simpa using fun hh => hv hh)
        simp [List.count_append, this]
      have e2 : (h :: rest).countP (fun r => decide (r.ver = v)) =
          rest.countP (fun r => decide (r.ver = v)) := by
        simp [List.countP_cons, Ne.symm hv]
      rw [e1, e2]
      simp only [hv, false_and, false_or]

/-- C6, counterexample.  Two science records sharing version 1: the
source logs the warning but appends one structural unit per science
record, so the later duplicate *does* create a unit of its own —
the claim says it does not. -/
theorem c6_duplicate_version_counterexample :
    ((read_units [⟨"SCI", 1, 10⟩, ⟨"SCI", 1, 20⟩]).map
        (fun u => u.data.payload) = [10, 20]) ∧
      (read_units [⟨"SCI", 1, 10⟩, ⟨"SCI", 1, 20⟩]).length ≠ 1 ∧
      dup_warnings [⟨"SCI", 1, 10⟩, ⟨"SCI", 1, 20⟩] = [1] := by
  decide

/-- C6, amended.  Duplicate versions among science records are non-fatal:
every science record — later duplicates included — seeds its own
structural unit, in input order, and a warning is logged for a version
exactly when it is positive-or-zero (`> -1`) and occurs at least twice
among the science records (the warning fires on the second
occurrence). -/
theorem c6_duplicate_versions_amended (hdus : List ExtRecord) :
    (read_units hdus).map (fun u => u.data) = sci_units hdus ∧
      ∀ v : Int, v ∈ dup_warnings hdus ↔
        (-1 < v ∧ 2 ≤ (sci_units hdus).countP (fun r => decide (r.ver = v))) := by
  constructor
  · have hmk : ((fun u : SciUnit => u.data) ∘ make_unit hdus) =
        fun h : ExtRecord => h := by
      funext h
      rfl
    rw [read_units, List.map_map, hmk, List.map_id']
  · intro v
    rw [dup_warnings, mem_dup_warnings_go]
    simp

/-- C6, witness: the amended theorem evaluated on a concrete input with a
duplicated version. -/
theorem c6_duplicate_versions_amended_witness :
    ((read_units [⟨"SCI", 1, 10⟩, ⟨"SCI", 1, 20⟩, ⟨"DQ", 1, 30⟩]).map
        (fun u => u.data) = sci_units [⟨"SCI", 1, 10⟩, ⟨"SCI", 1, 20⟩, ⟨"DQ", 1, 30⟩]) ∧
      ∀ v : Int, v ∈ dup_warnings [⟨"SCI", 1, 10⟩, ⟨"SCI", 1, 20⟩, ⟨"DQ", 1, 30⟩] ↔
        (-1 < v ∧ 2 ≤ (sci_units [⟨"SCI", 1, 10⟩, ⟨"SCI", 1, 20⟩, ⟨"DQ", 1, 30⟩]).countP
          (fun r => decide (r.ver = v))) :=
  c6_duplicate_versions_amended [⟨"SCI", 1, 10⟩, ⟨"SCI", 1, 20⟩, ⟨"DQ", 1, 30⟩]

/-! ## Writer emission order (`astrodata/fits.py`, `ad_to_hdulist`)

The model records, for each structural unit, the facts the writer's
emission sequence depends on: whether uncertainty and mask are present,
the outcome of the gWCS-to-FITS conversion, and the unit's `other`
map (an insertion-ordered dict of ancillary objects).  Version
renumbering of borrowed units only rewrites header numbers and does not
change the sequence of emitted records, so it is not modelled. -/

/-- Kinds of ancillary objects a unit's `meta["other"]` map can hold. -/
inductive OtherKind where
  | table
  | image
  | ndd
deriving DecidableEq

/-- Outcome of the gWCS handling in `ad_to_hdulist` for one unit, at the
collaborator boundary: `gwcs_to_fits` raises (`convFail`), or returns
a header dict — tagged approximate or exact via its `FITS-WCS` entry —
possibly carrying extra extension objects that the writer inserts into
the unit's `other` map. -/
inductive WcsOutcome where
  | convFail : WcsOutcome
  | conv : Bool → List (String × OtherKind) → WcsOutcome
deriving DecidableEq

/-- One structural unit as the writer sees it. -/
structure WExt where
  hasUncert : Bool
  hasMask : Bool
  wcs : Option WcsOutcome
  other : List (String × OtherKind)
deriving DecidableEq

/-- The dataset as the writer sees it: units in order plus the global
table names. -/
structure WAd where
  exts : List WExt
  tables : List String
deriving DecidableEq

/-- One emitted record, by kind. -/
inductive Hdu7 where
  | primary
  | sci
  | var
  | dq
  | wcsTab
  | otherH : String → OtherKind → Hdu7
  | tableH : String → Hdu7
deriving DecidableEq

/-- Python dict assignment `m[k] = v`: replace in place when the key
exists, append otherwise. -/
def dict_insert (m : List (String × OtherKind)) (k : String) (v : OtherKind) :
    List (String × OtherKind) :=
  if m.any (fun p => decide (p.1 = k)) then
    m.map (fun p => if p.1 = k then (k, v) else p)
  else
    m ++ [(k, v)]

/-- Folding the extensions handed back by `gwcs_to_fits` into the unit's
`other` dict (`ext.meta["other"][k] = v` per item). -/
def dict_update (m : List (String × OtherKind))
    (exts : List (String × OtherKind)) : List (String × OtherKind) :=
  exts.foldl (fun acc p => dict_insert acc p.1 p.2) m

/-- The unit's `other` map at emission time: on a successful conversion
the returned extensions have been inserted. -/
def effective_other (e : WExt) : List (String × OtherKind) :=
  match e.wcs with
  | some (.conv _ exts) => dict_update e.other exts
  | _ => e.other

/-- Whether the writer emits a WCS table record: the unit's `wcs` is
still a gWCS after the conversion block, i.e. the conversion raised,
or it succeeded but the FITS representation is approximate. -/
def wcs_emitted (w : Option WcsOutcome) : Bool :=
  match w with
  | none => false
  | some .convFail => true
  | some (.conv approx _) => approx

/-- Ordering for `sorted(ad._tables.items())` (and the spec's "name
order"): lexicographic on the name's characters. -/
def tableNameLE (a b : String) : Prop := a.data ≤ b.data

instance : DecidableRel tableNameLE := fun a b =>
  inferInstanceAs (Decidable (a.data ≤ b.data))

/-- Name order on `other` entries, used by the claim's reading. -/
def otherNameLE (a b : String × OtherKind) : Prop := a.1.data ≤ b.1.data

instance : DecidableRel otherNameLE := fun a b =>
  inferInstanceAs (Decidable (a.1.data ≤ b.1.data))

/-- The records `ad_to_hdulist` emits for one unit: SCI, then VAR if the
uncertainty is present, then DQ if the mask is present, then the WCS
table if the transform must be stored, then the `other` entries in
dict (insertion) order. -/
def ext_hdus (e : WExt) : List Hdu7 :=
  [Hdu7.sci] ++ (if e.hasUncert then [Hdu7.var] else []) ++
    (if e.hasMask then [Hdu7.dq] else []) ++
    (if wcs_emitted e.wcs then [Hdu7.wcsTab] else []) ++
    (effective_other e).map (fun p => Hdu7.otherH p.1 p.2)

/-- `ad_to_hdulist`: the primary record, the per-unit records in unit
order, then the global tables sorted by name. -/
def ad_to_hdulist (ad : WAd) : List Hdu7 :=
  [Hdu7.primary] ++ (ad.exts.map ext_hdus).flatten ++
    (List.insertionSort tableNameLE ad.tables).map Hdu7.tableH

/-- The emission sequence as C7 words it: per unit, SCI / VAR / DQ / a
WCS table whenever a coordinate transform is present, then the
ancillary entries in *name* order; finally the global tables in name
order. -/
def spec_claim_hdulist (ad : WAd) : List Hdu7 :=
  [Hdu7.primary] ++
    (ad.exts.map (fun e =>
      [Hdu7.sci] ++ (if e.hasUncert then [Hdu7.var] else []) ++
        (if e.hasMask then [Hdu7.dq] else []) ++
        (if e.wcs.isSome then [Hdu7.wcsTab] else []) ++
        (List.insertionSort otherNameLE e.other).map
          (fun p => Hdu7.otherH p.1 p.2))).flatten ++
    (List.insertionSort tableNameLE ad.tables).map Hdu7.tableH

/-- The emission sequence as amended: ancillary entries are emitted in
dict insertion order (after folding in any conversion-returned
extensions), and the WCS table appears exactly when the transform is
present and either its conversion raised or its FITS rendering is
approximate. -/
def spec_amended_hdulist (ad : WAd) : List Hdu7 :=
  [Hdu7.primary] ++
    (ad.exts.map (fun e =>
      [Hdu7.sci] ++ (if e.hasUncert then [Hdu7.var] else []) ++
        (if e.hasMask then [Hdu7.dq] else []) ++
        (match e.wcs with
         | none => []
         | some .convFail => [Hdu7.wcsTab]
         | some (.conv approx _) => if approx then [Hdu7.wcsTab] else []) ++
        (effective_other e).map (fun p => Hdu7.otherH p.1 p.2))).flatten ++
    (List.insertionSort tableNameLE ad.tables).map Hdu7.tableH

/-- C7, counterexample.  A unit whose ancillary entries were inserted as
"B" then "A": the source emits them in insertion order (B before A),
not in the name order the claim states. -/
theorem c7_emission_order_counterexample :
    ad_to_hdulist ⟨[⟨false, false, none, [("B", .image), ("A", .image)]⟩], []⟩ ≠
      spec_claim_hdulist
        ⟨[⟨false, false, none, [("B", .image), ("A", .image)]⟩], []⟩ := by
  decide

/-- C7, amended.  For every dataset the writer emits exactly: the primary
record; then for each unit in unit order its primary array, its
uncertainty if present, its mask if present, its transform-derived
table if a transform is present and is not exactly rendered into the
FITS header (conversion raised, or rendering approximate), then the
unit's ancillary entries in insertion order; and after all units the
global tables in name order. -/
theorem c7_emission_order_amended (ad : WAd) :
    ad_to_hdulist ad = spec_amended_hdulist ad := by
  unfold ad_to_hdulist spec_amended_hdulist
  have he : ext_hdus = fun e : WExt =>
      [Hdu7.sci] ++ (if e.hasUncert then [Hdu7.var] else []) ++
        (if e.hasMask then [Hdu7.dq] else []) ++
        (match e.wcs with
         | none => []
         | some .convFail => [Hdu7.wcsTab]
         | some (.conv approx _) => if approx then [Hdu7.wcsTab] else []) ++
        (effective_other e).map (fun p => Hdu7.otherH p.1 p.2) := by
    funext e
    unfold ext_hdus wcs_emitted
    rcases e with ⟨hu, hm, w, oth⟩
    match w with
    | none => rfl
    | some .convFail => rfl
    | some (.conv approx exts) =>
      cases approx <;> rfl
  rw [he]

/-! ## Shape checking in `AstroData.reset` (`astrodata/core.py`) and the
raw mask setter (`astrodata/nddata.py`, `NDAstroData.mask`)

The reset logic only ever consults array *shapes*; arrays are modelled
by their shape plus an opaque payload identifier so the theorems can
state which array ended up stored.  In the source an exception raised
while handling the mask propagates after `self.data` has already been
assigned; the model returns the raised error and drops the partially
updated state, which the claims do not depend on. -/

/-- An array argument: its shape and an opaque payload identifier. -/
structure Arr where
  shape : List Nat
  payload : Nat
deriving DecidableEq

/-- The mask/uncertainty-carrying state of one structural unit
(`NDAstroData`). -/
structure NDUnit where
  data : Arr
  mask : Option Arr
  uncertainty : Option Arr
deriving DecidableEq

/-- The raw `NDAstroData.mask` setter: `self._mask = value`, no checks. -/
def nd_set_mask (u : NDUnit) (m : Option Arr) : NDUnit :=
  { u with mask := m }

/-- A `mask=` / `variance=` argument of `reset`: an array (has `.shape`),
Python `None`, the `NO_DEFAULT` sentinel, or some other value without
a shape (which trips the `AttributeError` branch and then the
`TypeError`). -/
inductive ResetArg where
  | arr : Arr → ResetArg
  | noneArg : ResetArg
  | noDefault : ResetArg
  | scalar : Int → ResetArg
deriving DecidableEq

/-- The `data` argument of `reset`: a bare array, or an NDData-like
object carrying `.data` / `.mask` / `.uncertainty`. -/
inductive DataArg where
  | plain : Arr → DataArg
  | ndd : NDUnit → DataArg
deriving DecidableEq

/-- The primary array `reset` will store:
`self.data = data.data` when the argument has `.data`, else the bare
array. -/
def data_of (d : DataArg) : Arr :=
  match d with
  | .plain a => a
  | .ndd x => x.data

/-- The errors `reset` can raise. -/
inductive ResetError where
  | valueError
  | typeError
deriving DecidableEq

/-- `AstroData.reset`, translated clause by clause: set the data; then
handle the mask (`ValueError` when an array's shape differs from the
new data's shape while `check` is set; `None` clears; `NO_DEFAULT`
copies `data.mask` when the data argument has one and otherwise leaves
the stored mask alone; anything else raises `TypeError`); then handle
the variance the same way. -/
def reset (u : NDUnit) (d : DataArg) (mask variance : ResetArg)
    (check : Bool) : Except ResetError NDUnit :=
  let newData := data_of d
  let u1 := { u with data := newData }
  let maskStep : Except ResetError NDUnit :=
    match mask with
    | .arr m =>
      if m.shape ≠ newData.shape ∧ check = true then .error .valueError
      else .ok { u1 with mask := some m }
    | .noneArg => .ok { u1 with mask := none }
    | .noDefault =>
      match d with
      | .ndd x => .ok { u1 with mask := x.mask }
      | .plain _ => .ok u1
    | .scalar _ => .error .typeError
  match maskStep with
  | .error e => .error e
  | .ok u2 =>
    match variance with
    | .arr v =>
      if v.shape ≠ newData.shape ∧ check = true then .error .valueError
      else .ok { u2 with uncertainty := some v }
    | .noneArg => .ok { u2 with uncertainty := none }
    | .noDefault =>
      match d with
      | .ndd x => .ok { u2 with uncertainty := x.uncertainty }
      | .plain _ => .ok u2
    | .scalar _ => .error .typeError

/-- The shape invariant of C8 on one unit: mask and uncertainty, when
present, match the primary array's shape. -/
def shape_invariant (u : NDUnit) : Prop :=
  (∀ m, u.mask = some m → m.shape = u.data.shape) ∧
    (∀ v, u.uncertainty = some v → v.shape = u.data.shape)

instance : ∀ u, Decidable (shape_invariant u) := fun u =>
  inferInstanceAs (Decidable (_ ∧ _))

/-- C8, counterexample.  The invariant is not maintained by every model
operation: `reset` with `check=False` stores a 3-element mask on a
2-element array and succeeds, and the raw `NDAstroData.mask` setter
stores the same mismatched mask with no check at all. -/
theorem c8_shape_invariant_counterexample :
    (reset ⟨⟨[2], 0⟩, none, none⟩ (.plain ⟨[2], 1⟩) (.arr ⟨[3], 2⟩) .noneArg
        false = .ok ⟨⟨[2], 1⟩, some ⟨[3], 2⟩, none⟩) ∧
      ¬ shape_invariant ⟨⟨[2], 1⟩, some ⟨[3], 2⟩, none⟩ ∧
      nd_set_mask ⟨⟨[2], 0⟩, none, none⟩ (some ⟨[3], 2⟩) =
        ⟨⟨[2], 0⟩, some ⟨[3], 2⟩, none⟩ := by
  decide

/-- C8, amended.  Shape verification lives in the dedicated `reset`
accessor and fires only when its `check` flag is set: with
`check=True` and explicit array mask/variance arguments, `reset`
raises a shape-mismatch `ValueError` exactly when the supplied mask or
variance shape differs from the new data shape, and on success the
resulting unit stores the supplied arrays and satisfies the shape
invariant.  With `check` unset (or through the raw mask setter) values
are stored unchecked, so the invariant is not maintained by every
model operation. -/
theorem c8_reset_check_amended (u : NDUnit) (d : DataArg) (m v : Arr) :
    (reset u d (.arr m) (.arr v) true =
      if m.shape ≠ (data_of d).shape then .error .valueError
      else if v.shape ≠ (data_of d).shape then .error .valueError
      else .ok ⟨data_of d, some m, some v⟩) ∧
      (∀ u', reset u d (.arr m) (.arr v) true = .ok u' → shape_invariant u') := by
  have hmain : reset u d (.arr m) (.arr v) true =
      if m.shape ≠ (data_of d).shape then .error .valueError
      else if v.shape ≠ (data_of d).shape then .error .valueError
      else .ok ⟨data_of d, some m, some v⟩ := by
    unfold reset
    by_cases hm : m.shape ≠ (data_of d).shape
    · simp [hm]
    · by_cases hv : v.shape ≠ (data_of d).shape
      · simp [hm, hv]
      · simp [hm, hv]
  refine ⟨hmain, ?_⟩
  intro u' hok
  rw [hmain] at hok
  by_cases hm : m.shape ≠ (data_of d).shape
  · rw [if_pos hm] at hok
    exact absurd hok (by simp)
  · rw [if_neg hm] at hok
    by_cases hv : v.shape ≠ (data_of d).shape
    · rw [if_pos hv] at hok
      exact absurd hok (by simp)
    · rw [if_neg hv] at hok
      cases hok
      push_neg at hm hv
      constructor
      · intro mm hmm
        cases hmm
        exact hm
      · intro vv hvv
        cases hvv
        exact hv

/-- C8, witness: the amended characterization evaluated on a concrete
unit, both on a mismatching call (raises) and implicitly through the
equation. -/
theorem c8_reset_check_amended_witness :
    (reset ⟨⟨[2], 0⟩, none, none⟩ (.plain ⟨[2], 1⟩) (.arr ⟨[3], 2⟩)
        (.arr ⟨[2], 3⟩) true =
      if ([3] : List Nat) ≠ ([2] : List Nat) then .error .valueError
      else if ([2] : List Nat) ≠ ([2] : List Nat) then .error .valueError
      else .ok ⟨⟨[2], 1⟩, some ⟨[3], 2⟩, some ⟨[2], 3⟩⟩) ∧
      (∀ u', reset ⟨⟨[2], 0⟩, none, none⟩ (.plain ⟨[2], 1⟩) (.arr ⟨[3], 2⟩)
          (.arr ⟨[2], 3⟩) true = .ok u' → shape_invariant u') :=
  c8_reset_check_amended ⟨⟨[2], 0⟩, none, none⟩ (.plain ⟨[2], 1⟩)
    ⟨[3], 2⟩ ⟨[2], 3⟩

/-! ## Cross-dataset arithmetic (`astrodata/core.py`, `AstroData._oper`
and `AstroData.__add__`)

For two top-level datasets the loop applies the NDData operator
pairwise (`ndd[ind[n]] = operator(ndd[ind[n]], data)`), then copies
over the operand's global tables whose names the left operand lacks
(`for tab in rtab - ltab: self._tables[tab] = op_table[tab]`).  Global
tables are modelled as the dict's content, a map from name to
optional value; per-unit payloads and the operator stay abstract.  The
copying forms (`__add__` and friends) are `deepcopy` followed by the
in-place form and coincide with it in this pure embedding. -/

/-- A dataset as `_oper` sees it: its unit payloads in order and its
global tables. -/
structure OpAd (α τ : Type) where
  exts : List α
  tables : String → Option τ

/-- The table update `for tab in rtab - ltab: self._tables[tab] =
op_table[tab]`: a name found in the operand but absent on the left
side is copied; every other name keeps the left side's entry. -/
def oper_tables {τ : Type} (ta tb : String → Option τ) :
    String → Option τ :=
  fun n => if (ta n).isNone ∧ (tb n).isSome then tb n else ta n

/-- `AstroData._oper` with an AstroData operand: unit counts must agree
(`ValueError` otherwise), the operator is applied pairwise in unit
order, and the operand's tables are merged as above. -/
def oper {α τ : Type} (op : α → α → α) (a b : OpAd α τ) :
    Except Unit (OpAd α τ) :=
  if a.exts.length ≠ b.exts.length then .error ()
  else .ok { exts := List.zipWith op a.exts b.exts
             tables := oper_tables a.tables b.tables }

/-- C10.  For datasets with equal unit counts, in-place arithmetic (and
hence the copying forms, which deepcopy and then run the in-place
form) applies the operator pairwise to the units and additionally
copies into the left operand every global table of the operand whose
name is absent on the left, while leaving the left operand's existing
tables untouched — a frame effect beyond the arrays, masks and scalar
metadata the spec lists. -/
theorem c10_arith_table_copy {α τ : Type} (op : α → α → α)
    (a b : OpAd α τ) (h : a.exts.length = b.exts.length) :
    oper op a b = .ok { exts := List.zipWith op a.exts b.exts
                        tables := oper_tables a.tables b.tables } ∧
      (∀ n t, a.tables n = some t → oper_tables a.tables b.tables n = some t) ∧
      (∀ n, a.tables n = none → oper_tables a.tables b.tables n = b.tables n) := by
  refine ⟨?_, ?_, ?_⟩
  · unfold oper
    rw [if_neg (by omega)]
  · intro n t ht
    unfold oper_tables
    rw [if_neg (by simp [ht])]
    exact ht
  · intro n hn
    unfold oper_tables
    cases hb : b.tables n
    · rw [if_neg (by simp [hb]), hn]
    · rw [if_pos (by simp [hn, hb])]

/-- C10, witness: two concrete one-unit integer datasets; the operand's
table "B" is copied, the left operand's "A" survives. -/
theorem c10_arith_table_copy_witness :
    (oper (fun x y : Int => x + y)
        ⟨[1], fun n => if n = "A" then some (5 : Int) else none⟩
        ⟨[2], fun n => if n = "B" then some (7 : Int) else none⟩ =
      .ok { exts := List.zipWith (fun x y : Int => x + y) [1] [2]
            tables := oper_tables
              (fun n => if n = "A" then some (5 : Int) else none)
              (fun n => if n = "B" then some (7 : Int) else none) }) ∧
      (∀ n t, (if n = "A" then some (5 : Int) else none) = some t →
        oper_tables (fun n => if n = "A" then some (5 : Int) else none)
          (fun n => if n = "B" then some (7 : Int) else none) n = some t) ∧
      (∀ n, (if n = "A" then some (5 : Int) else none) = none →
        oper_tables (fun n => if n = "A" then some (5 : Int) else none)
          (fun n => if n = "B" then some (7 : Int) else none) n =
          (if n = "B" then some (7 : Int) else none)) :=
  c10_arith_table_copy (fun x y : Int => x + y)
    ⟨[1], fun n => if n = "A" then some (5 : Int) else none⟩
    ⟨[2], fun n => if n = "B" then some (7 : Int) else none⟩ rfl

/-! ## Windowed chunked reduction (`astrodata/fits.py`,
`windowed_operation`, `_apply_func`, `_generate_boxes`)

Arrays are embedded as integer-valued functions on index lists; one
reducer output carries the primary data plus the named ancillary
outputs (`out.meta["other"]`, an insertion-ordered dict, hence with
distinct names).  A box is the per-axis `(x, x + step)` tick pair list
of the source; `_generate_boxes` asserts equal kernel/shape arity,
which the divisibility hypothesis below subsumes. -/

/-- Per-axis ticks of `_generate_boxes`:
`[(x, x + step) for x in range(0, axis, step)]`. -/
def ticks (axis step : Nat) : List (Nat × Nat) :=
  (List.range ((axis + step - 1) / step)).map
    (fun j => (j * step, j * step + step))

/-- `itertools.product` of the per-axis tick lists, last axis fastest. -/
def cart_product {α : Type} : List (List α) → List (List α)
  | [] => [[]]
  | xs :: rest => xs.flatMap (fun x => (cart_product rest).map (fun b => x :: b))

/-- `_generate_boxes(shape, kernel)`. -/
def generate_boxes (shape kernel : List Nat) : List (List (Nat × Nat)) :=
  cart_product (List.zipWith ticks shape kernel)

/-- An array value: a total function on index lists. -/
abbrev ArrFn := List Nat → Int

/-- One reducer invocation's output: primary data plus named ancillary
outputs. -/
structure OutObj where
  data : ArrFn
  others : List (String × ArrFn)

/-- The reducer handed to `windowed_operation`. -/
abbrev Reducer := List ArrFn → OutObj

/-- `element.window[section]`: the input windowed to a box, indexed
relative to the box start. -/
def window_fn (b : List (Nat × Nat)) (f : ArrFn) : ArrFn :=
  fun rel => f (List.zipWith (fun p i => p.1 + i) b rel)

/-- Does an absolute index lie inside a box? -/
def in_box : List Nat → List (Nat × Nat) → Bool
  | [], [] => true
  | i :: is, p :: ps => decide (p.1 ≤ i ∧ i < p.2) && in_box is ps
  | _, _ => false

/-- Box-relative coordinates of an absolute index. -/
def rel_idx (b : List (Nat × Nat)) (idx : List Nat) : List Nat :=
  List.zipWith (fun i p => i - p.1) idx b

/-- `result.set_section(section, out)` for one box: indices inside the
box read the box output, all others are unchanged. -/
def write_box (cur : ArrFn) (b : List (Nat × Nat)) (g : ArrFn) : ArrFn :=
  fun idx => if in_box idx b then g (rel_idx b idx) else cur idx

/-- The `_apply_func` loop, data part: each box's reducer output is
written into its section of the freshly allocated output (`np.empty`,
modelled as all zeros). -/
def apply_func_data (f : Reducer) (xs : List ArrFn)
    (boxes : List (List (Nat × Nat))) : ArrFn :=
  boxes.foldl (fun cur b => write_box cur b (f (xs.map (window_fn b))).data)
    (fun _ => 0)

/-- The `_apply_func` loop, ancillary part: the `(name, coords) → value`
entries accumulated over the boxes, in box-then-name order. -/
def other_entries (f : Reducer) (xs : List ArrFn)
    (boxes : List (List (Nat × Nat))) :
    List ((String × List (Nat × Nat)) × ArrFn) :=
  boxes.flatMap (fun b =>
    (f (xs.map (window_fn b))).others.map (fun p => ((p.1, b), p.2)))

/-- The reassembly loop of `windowed_operation` for `len(boxes) > 1`:
each accumulated entry is written into the section of a full-shape
array allocated on the name's first appearance. -/
def assemble_go (acc : List (String × ArrFn)) :
    List ((String × List (Nat × Nat)) × ArrFn) → List (String × ArrFn)
  | [] => acc
  | ((name, b), g) :: rest =>
    if acc.any (fun p => decide (p.1 = name)) then
      assemble_go
        (acc.map (fun p => if p.1 = name then (p.1, write_box p.2 b g) else p))
        rest
    else
      assemble_go (acc ++ [(name, write_box (fun _ => 0) b g)]) rest

/-- The ancillary outputs of `windowed_operation`: reassembled by name
when the input was split into several boxes (`len(boxes) > 1`), stored
as returned by the single invocation otherwise (no boxes at all leave
the `other` dict empty). -/
def windowed_others (f : Reducer) (xs : List ArrFn) :
    List (List (Nat × Nat)) → List (String × ArrFn)
  | [] => []
  | [b] => (f (xs.map (window_fn b))).others
  | boxes => assemble_go [] (other_entries f xs boxes)

/-- `windowed_operation`: the assembled primary data and ancillary
outputs. -/
def windowed_operation (f : Reducer) (xs : List ArrFn)
    (kernel shape : List Nat) : ArrFn × List (String × ArrFn) :=
  (apply_func_data f xs (generate_boxes shape kernel),
    windowed_others f xs (generate_boxes shape kernel))

/-- The claim's side condition: every kernel entry is positive and
exactly divides the corresponding (positive) shape entry. -/
def divides_shape : List Nat → List Nat → Bool
  | [], [] => true
  | k :: ks, s :: ss => decide (0 < k ∧ 0 < s ∧ k ∣ s) && divides_shape ks ss
  | _, _ => false

/-- Is an index inside the (full) shape? -/
def in_shape : List Nat → List Nat → Bool
  | [], [] => true
  | i :: is, s :: ss => decide (i < s) && in_shape is ss
  | _, _ => false

/-- A reducer commutes with windowing on the given inputs: its output on
the windowed inputs is the window of its output on the full inputs,
for the primary data and for every ancillary output alike. -/
def LocalReducer (f : Reducer) (xs : List ArrFn) : Prop :=
  ∀ b : List (Nat × Nat),
    (f (xs.map (window_fn b))).data = window_fn b (f xs).data ∧
    (f (xs.map (window_fn b))).others =
      (f xs).others.map (fun p => (p.1, window_fn b p.2))

/-- C9, counterexample.  The claim quantifies over *every* reducer; a
reducer that broadcasts the first element of its (windowed) input is
not windowing-invariant, and on the kernel `[1]` (which divides the
shape `[2]`) it produces `[5, 7]` while the single full-shape box
produces `[5, 5]`. -/
theorem c9_chunking_counterexample :
    divides_shape [1] [2] = true ∧
      ((windowed_operation
          (fun fs => ⟨fun _ => (fs.headD (fun _ => 0)) [0], []⟩)
          [fun idx => if idx = [0] then 5 else 7] [1] [2]).1 [1] = 7) ∧
      ((windowed_operation
          (fun fs => ⟨fun _ => (fs.headD (fun _ => 0)) [0], []⟩)
          [fun idx => if idx = [0] then 5 else 7] [2] [2]).1 [1] = 5) ∧
      (7 : Int) ≠ 5 := by
  constructor
  · decide
  · refine ⟨?_, ?_, by decide⟩ <;> rfl

/-- The unique box of the kernel grid that contains a given index. -/
def cover_box (idx kernel : List Nat) : List (Nat × Nat) :=
  List.zipWith (fun i k => (i / k * k, i / k * k + k)) idx kernel

theorem ticks_count {s k : Nat} (hk : 0 < k) (hdvd : k ∣ s) :
    (s + k - 1) / k = s / k := by
  obtain ⟨m, rfl⟩ := hdvd
  have h1 : k * m + k - 1 = k * m + (k - 1) := by omega
  have h2 : (k - 1) / k = 0 := Nat.div_eq_of_lt (by omega)
  rw [h1, Nat.mul_add_div hk, h2, Nat.mul_div_cancel_left m hk]
  omega

theorem mem_ticks {p : Nat × Nat} {s k : Nat} :
    p ∈ ticks s k ↔ ∃ j, j < (s + k - 1) / k ∧ p = (j * k, j * k + k) := by
  simp only [ticks, List.mem_map, List.mem_range]
  constructor
  · rintro ⟨j, hj, rfl⟩
    exact ⟨j, hj, rfl⟩
  · rintro ⟨j, hj, rfl⟩
    exact ⟨j, hj, rfl⟩

/-- Per-axis coverage: a coordinate inside the axis lies in exactly one
tick of that axis, the one starting at `i / k * k`. -/
theorem cover_axis {i s k : Nat} (hk : 0 < k) (hdvd : k ∣ s) (hi : i < s) :
    (i / k * k, i / k * k + k) ∈ ticks s k ∧
      (i / k * k ≤ i ∧ i < i / k * k + k) ∧
      ∀ p ∈ ticks s k, p.1 ≤ i → i < p.2 →
        p = (i / k * k, i / k * k + k) := by
  have hmod := Nat.div_add_mod i k
  have hmlt := Nat.mod_lt i hk
  have hcomm : i / k * k = k * (i / k) := Nat.mul_comm _ _
  refine ⟨?_, ⟨Nat.div_mul_le_self i k, by omega⟩, ?_⟩
  · rw [mem_ticks]
    refine ⟨i / k, ?_, rfl⟩
    rw [ticks_count hk hdvd]
    obtain ⟨m, rfl⟩ := hdvd
    rw [Nat.mul_div_cancel_left m hk]
    refine (Nat.div_lt_iff_lt_mul hk).mpr ?_
    rw [Nat.mul_comm]
    exact hi
  · intro p hp hp1 hp2
    rw [mem_ticks] at hp
    obtain ⟨j, _, rfl⟩ := hp
    have hj : i / k = j := by
      refine Nat.div_eq_of_lt_le ?_ ?_
      · exact hp1
      · rw [Nat.succ_mul]
        exact hp2
    rw [hj]

theorem mem_cart_product {α : Type} {b : List α} :
    ∀ {ls : List (List α)},
      b ∈ cart_product ls ↔ List.Forall₂ (fun x xs => x ∈ xs) b ls := by
  intro ls
  induction ls generalizing b with
  | nil =>
    simp only [cart_product, List.mem_singleton]
    constructor
    · rintro rfl
      exact List.Forall₂.nil
    · intro h
      cases h
      rfl
  | cons xs rest ih =>
    simp only [cart_product, List.mem_flatMap, List.mem_map]
    constructor
    · rintro ⟨x, hx, b', hb', rfl⟩
      exact List.Forall₂.cons hx (ih.mp hb')
    · intro h
      cases h with
      | cons hx hrest => exact ⟨_, hx, _, ih.mpr hrest, rfl⟩

/-- The covering box of an in-shape index belongs to the generated grid,
contains the index, and is the only grid box that does. -/
theorem cover_box_spec :
    ∀ (shape idx kernel : List Nat),
      divides_shape kernel shape = true → in_shape idx shape = true →
      cover_box idx kernel ∈ generate_boxes shape kernel ∧
        in_box idx (cover_box idx kernel) = true ∧
        ∀ b ∈ generate_boxes shape kernel, in_box idx b = true →
          b = cover_box idx kernel
  | [], [], [], _, _ => by
    refine ⟨?_, rfl, ?_⟩
    · simp [generate_boxes, cart_product, cover_box]
    · intro b hb _
      simp only [generate_boxes, List.zipWith_nil_right] at hb
      simp only [cart_product, List.mem_singleton] at hb
      simp [hb, cover_box]
  | [], [], _ :: _, hdiv, _ => by cases hdiv
  | [], _ :: _, _, _, hin => by cases hin
  | _ :: _, [], _, _, hin => by cases hin
  | _ :: _, _ :: _, [], hdiv, _ => by cases hdiv
  | s :: ss, i :: is, k :: ks, hdiv, hin => by
    rw [divides_shape, Bool.and_eq_true, decide_eq_true_eq] at hdiv
    rw [in_shape, Bool.and_eq_true, decide_eq_true_eq] at hin
    obtain ⟨⟨hk, _, hdvd⟩, hdiv'⟩ := hdiv
    obtain ⟨hi, hin'⟩ := hin
    obtain ⟨memIH, inIH, uniqIH⟩ := cover_box_spec ss is ks hdiv' hin'
    obtain ⟨tmem, ⟨tle, tlt⟩, tuniq⟩ := cover_axis hk hdvd hi
    have hcb : cover_box (i :: is) (k :: ks) =
        (i / k * k, i / k * k + k) :: cover_box is ks := rfl
    have hgb : generate_boxes (s :: ss) (k :: ks) =
        (ticks s k).flatMap
          (fun t => (generate_boxes ss ks).map (fun b => t :: b)) := rfl
    refine ⟨?_, ?_, ?_⟩
    · rw [hcb, hgb, List.mem_flatMap]
      exact ⟨_, tmem, List.mem_map.mpr ⟨_, memIH, rfl⟩⟩
    · rw [hcb, in_box, Bool.and_eq_true, decide_eq_true_eq]
      exact ⟨⟨tle, tlt⟩, inIH⟩
    · intro b hb hbin
      rw [hgb, List.mem_flatMap] at hb
      obtain ⟨t, ht, hb⟩ := hb
      rw [List.mem_map] at hb
      obtain ⟨b', hb', rfl⟩ := hb
      rw [in_box, Bool.and_eq_true, decide_eq_true_eq] at hbin
      obtain ⟨⟨h1, h2⟩, h3⟩ := hbin
      rw [hcb, tuniq t ht h1 h2, uniqIH b' hb' h3]

/-- Re-windowing: the absolute index reconstructed from a box and the
relative index is the original index, whenever the index lies in the
box. -/
theorem box_add_rel :
    ∀ (idx : List Nat) (b : List (Nat × Nat)), in_box idx b = true →
      List.zipWith (fun p i => p.1 + i) b (rel_idx b idx) = idx
  | [], [], _ => rfl
  | [], _ :: _, h => by cases h
  | _ :: _, [], h => by cases h
  | i :: is, p :: ps, h => by
    rw [in_box, Bool.and_eq_true, decide_eq_true_eq] at h
    have htail := box_add_rel is ps h.2
    have hhead : p.1 + (i - p.1) = i := by omega
    simp only [rel_idx, List.zipWith_cons_cons] at htail ⊢
    rw [hhead, htail]

/-- Folding section writes over boxes that all miss the index leaves the
value at that index unchanged. -/
theorem foldl_write_not_mem {idx : List Nat}
    (g : List (Nat × Nat) → ArrFn) :
    ∀ (boxes : List (List (Nat × Nat))) (init : ArrFn),
      (∀ b ∈ boxes, in_box idx b = false) →
      (boxes.foldl (fun cur b => write_box cur b (g b)) init) idx = init idx
  | [], _, _ => rfl
  | b :: bs, init, h => by
    rw [List.foldl_cons, foldl_write_not_mem g bs _
      (fun b' hb' => h b' (List.mem_cons_of_mem _ hb'))]
    simp [write_box, h b (List.mem_cons_self _ _)]

/-- Folding section writes over boxes of which exactly one contains the
index produces that box's value at the relative coordinates. -/
theorem foldl_write_unique {idx : List Nat}
    (g : List (Nat × Nat) → ArrFn) (bstar : List (Nat × Nat)) :
    ∀ (boxes : List (List (Nat × Nat))) (init : ArrFn),
      bstar ∈ boxes → in_box idx bstar = true →
      (∀ b ∈ boxes, in_box idx b = true → b = bstar) →
      (boxes.foldl (fun cur b => write_box cur b (g b)) init) idx =
        g bstar (rel_idx bstar idx)
  | [], _, hmem, _, _ => absurd hmem (List.not_mem_nil _)
  | b :: bs, init, hmem, hin, huniq => by
    rw [List.foldl_cons]
    by_cases hb : bstar ∈ bs
    · exact foldl_write_unique g bstar bs _ hb hin
        (fun b' h' hin' => huniq b' (List.mem_cons_of_mem _ h') hin')
    · have hbb : b = bstar := by
        rcases List.mem_cons.mp hmem with h | h
        · exact h.symm
        · exact absurd h hb
      have hrest : ∀ b' ∈ bs, in_box idx b' = false := by
        intro b' hb'
        by_contra hcon
        have htrue : in_box idx b' = true := by
          cases hbool : in_box idx b'
          · exact absurd hbool hcon
          · rfl
        have := huniq b' (List.mem_cons_of_mem _ hb') htrue
        rw [this] at hb'
        exact hb hb'
      rw [foldl_write_not_mem g bs _ hrest, hbb]
      simp [write_box, hin]

/-- The primary data assembled from the kernel grid agrees, on every
in-shape index, with the reducer's full-input data — for any reducer
that commutes with windowing. -/
theorem windowed_data_canonical (f : Reducer) (xs : List ArrFn)
    (kernel shape : List Nat) (hloc : LocalReducer f xs)
    (hdiv : divides_shape kernel shape = true) :
    ∀ idx, in_shape idx shape = true →
      (windowed_operation f xs kernel shape).1 idx = (f xs).data idx := by
  intro idx hin
  obtain ⟨hmem, hinb, huniq⟩ := cover_box_spec shape idx kernel hdiv hin
  show apply_func_data f xs (generate_boxes shape kernel) idx = _
  rw [apply_func_data, foldl_write_unique
    (fun b => (f (xs.map (window_fn b))).data) (cover_box idx kernel) _ _
    hmem hinb huniq, (hloc (cover_box idx kernel)).1, window_fn,
    box_add_rel idx _ hinb]

theorem divides_shape_self :
    ∀ {kernel shape : List Nat}, divides_shape kernel shape = true →
      divides_shape shape shape = true
  | [], [], _ => rfl
  | [], _ :: _, h => by cases h
  | _ :: _, [], h => by cases h
  | k :: ks, s :: ss, h => by
    rw [divides_shape, Bool.and_eq_true, decide_eq_true_eq] at h
    rw [divides_shape, Bool.and_eq_true, decide_eq_true_eq]
    exact ⟨⟨h.1.2.1, h.1.2.1, dvd_refl s⟩, divides_shape_self h.2⟩

theorem zeros_in_shape :
    ∀ {kernel shape : List Nat}, divides_shape kernel shape = true →
      in_shape (shape.map (fun _ => 0)) shape = true
  | [], [], _ => rfl
  | [], _ :: _, h => by cases h
  | _ :: _, [], h => by cases h
  | k :: ks, s :: ss, h => by
    rw [divides_shape, Bool.and_eq_true, decide_eq_true_eq] at h
    rw [List.map_cons, in_shape, Bool.and_eq_true, decide_eq_true_eq]
    exact ⟨h.1.2.1, zeros_in_shape h.2⟩

theorem cover_box_zeros :
    ∀ {kernel shape : List Nat}, divides_shape kernel shape = true →
      cover_box (shape.map (fun _ => 0)) kernel =
        kernel.map (fun k => (0, k))
  | [], [], _ => rfl
  | [], _ :: _, h => by cases h
  | _ :: _, [], h => by cases h
  | k :: ks, s :: ss, h => by
    rw [divides_shape, Bool.and_eq_true] at h
    have ih := cover_box_zeros h.2
    simp only [List.map_cons, cover_box, List.zipWith_cons_cons] at ih ⊢
    rw [Nat.zero_div, Nat.zero_mul, Nat.zero_add]
    exact congrArg _ ih

theorem window_fn_zero_starts :
    ∀ (kernel idx : List Nat) (g : ArrFn), kernel.length = idx.length →
      g (List.zipWith (fun p i => p.1 + i)
          (kernel.map (fun k => ((0 : Nat), k))) idx) = g idx
  | [], [], _, _ => rfl
  | [], _ :: _, _, h => by cases h
  | _ :: _, [], _, h => by cases h
  | k :: ks, i :: is, g, h => by
    simp only [List.map_cons, List.zipWith_cons_cons, Nat.zero_add]
    exact window_fn_zero_starts ks is (fun t => g (i :: t))
      (by simpa using h)

theorem in_shape_length :
    ∀ {idx shape : List Nat}, in_shape idx shape = true →
      idx.length = shape.length
  | [], [], _ => rfl
  | [], _ :: _, h => by cases h
  | _ :: _, [], h => by cases h
  | _ :: is, _ :: ss, h => by
    rw [in_shape, Bool.and_eq_true] at h
    simpa using in_shape_length h.2

theorem divides_shape_length :
    ∀ {kernel shape : List Nat}, divides_shape kernel shape = true →
      kernel.length = shape.length
  | [], [], _ => rfl
  | [], _ :: _, h => by cases h
  | _ :: _, [], h => by cases h
  | _ :: ks, _ :: ss, h => by
    rw [divides_shape, Bool.and_eq_true] at h
    simpa using divides_shape_length h.2

theorem cart_product_ne_nil {α : Type} :
    ∀ {ls : List (List α)}, (∀ l ∈ ls, l ≠ []) → cart_product ls ≠ []
  | [], _ => by simp [cart_product]
  | xs :: rest, h => by
    have hxs := h xs (List.mem_cons_self _ _)
    have hrest : cart_product rest ≠ [] :=
      cart_product_ne_nil (fun l hl => h l (List.mem_cons_of_mem _ hl))
    simp only [cart_product, ne_eq, List.flatMap_eq_nil_iff, not_forall]
    obtain ⟨x, hx⟩ := List.exists_mem_of_ne_nil xs hxs
    obtain ⟨b, hb⟩ := List.exists_mem_of_ne_nil _ hrest
    exact ⟨x, hx, by simp [List.map_eq_nil_iff]; exact fun hc => hrest hc⟩

theorem ticks_ne_nil {s k : Nat} (hk : 0 < k) (hs : 0 < s) (hdvd : k ∣ s) :
    ticks s k ≠ [] := by
  rw [ticks, ne_eq, List.map_eq_nil_iff, List.range_eq_nil,
    ticks_count hk hdvd]
  obtain ⟨m, rfl⟩ := hdvd
  rw [Nat.mul_div_cancel_left m hk]
  rintro rfl
  simp at hs

theorem zip_ticks_ne_nil :
    ∀ {kernel shape : List Nat}, divides_shape kernel shape = true →
      ∀ l ∈ List.zipWith ticks shape kernel, l ≠ []
  | [], [], _ => by simp
  | [], _ :: _, h => by cases h
  | _ :: _, [], h => by cases h
  | k :: ks, s :: ss, h => by
    rw [divides_shape, Bool.and_eq_true, decide_eq_true_eq] at h
    intro l hl
    rw [List.zipWith_cons_cons] at hl
    rcases List.mem_cons.mp hl with rfl | hl'
    · exact ticks_ne_nil h.1.1 h.1.2.1 h.1.2.2
    · exact zip_ticks_ne_nil h.2 l hl'

theorem generate_boxes_ne_nil {kernel shape : List Nat}
    (h : divides_shape kernel shape = true) :
    generate_boxes shape kernel ≠ [] :=
  cart_product_ne_nil (zip_ticks_ne_nil h)

/-- Processing one box's group of ancillary entries when none of the
names is present yet: each entry allocates a fresh array and is
written into it, in name order, appended after the existing entries. -/
theorem assemble_go_new (b : List (Nat × Nat)) :
    ∀ (qs done : List (String × ArrFn))
      (es : List ((String × List (Nat × Nat)) × ArrFn)),
      (∀ p ∈ done, ∀ q ∈ qs, p.1 ≠ q.1) → (qs.map Prod.fst).Nodup →
      assemble_go done
          ((qs.map (fun q => ((q.1, b), window_fn b q.2))) ++ es) =
        assemble_go
          (done ++ qs.map
            (fun q => (q.1, write_box (fun _ => 0) b (window_fn b q.2))))
          es
  | [], done, es, _, _ => by simp
  | q :: qs', done, es, hdisj, hnd => by
    rw [List.map_cons, List.cons_append, assemble_go]
    have hany : done.any (fun p => decide (p.1 = q.1)) = false := by
      rw [List.any_eq_false]
      intro p hp
      simpa using hdisj p hp q (List.mem_cons_self _ _)
    rw [hany]
    simp only [Bool.false_eq_true, if_false]
    rw [List.map_cons] at hnd
    have hnd' := List.nodup_cons.mp hnd
    have := assemble_go_new b qs' (done ++ [(q.1, write_box (fun _ => 0) b
      (window_fn b q.2))]) es ?_ hnd'.2
    · rw [this, List.append_assoc]
      rfl
    · intro p hp q' hq'
      rcases List.mem_append.mp hp with hp' | hp'
      · exact hdisj p hp' q' (List.mem_cons_of_mem _ hq')
      · rw [List.mem_singleton] at hp'
        subst hp'
        intro hc
        exact hnd'.1 (by
          rw [hc]
          exact List.mem_map.mpr ⟨q', hq', rfl⟩)

/-- Processing one box's group of ancillary entries when every name is
already present (the accumulator holds one entry per name, in the same
order): each entry is written into its section in place. -/
theorem assemble_go_update (b : List (Nat × Nat)) :
    ∀ (qs : List (String × ArrFn)) (A : (String × ArrFn) → ArrFn)
      (done : List (String × ArrFn))
      (es : List ((String × List (Nat × Nat)) × ArrFn)),
      (∀ p ∈ done, ∀ q ∈ qs, p.1 ≠ q.1) → (qs.map Prod.fst).Nodup →
      assemble_go (done ++ qs.map (fun q => (q.1, A q)))
          ((qs.map (fun q => ((q.1, b), window_fn b q.2))) ++ es) =
        assemble_go
          (done ++ qs.map
            (fun q => (q.1, write_box (A q) b (window_fn b q.2))))
          es
  | [], _, done, es, _, _ => by simp
  | q :: qs', A, done, es, hdisj, hnd => by
    simp only [List.map_cons, List.cons_append]
    rw [assemble_go]
    rw [List.map_cons] at hnd
    have hnd' := List.nodup_cons.mp hnd
    have hany : (done ++ (q.1, A q) :: qs'.map (fun q' => (q'.1, A q'))).any
        (fun p => decide (p.1 = q.1)) = true := by
      rw [List.any_eq_true]
      exact ⟨(q.1, A q), by simp, by simp⟩
    rw [hany]
    simp only [if_true]
    have hmap : (done ++ (q.1, A q) :: qs'.map (fun q' => (q'.1, A q'))).map
        (fun p => if p.1 = q.1 then (p.1, write_box p.2 b (window_fn b q.2))
          else p) =
        (done ++ [(q.1, write_box (A q) b (window_fn b q.2))]) ++
          qs'.map (fun q' => (q'.1, A q')) := by
      rw [List.map_append, List.map_cons]
      have hdone : done.map (fun p =>
          if p.1 = q.1 then (p.1, write_box p.2 b (window_fn b q.2)) else p) =
          done := by
        conv_rhs => rw [← List.map_id done]
        refine List.map_congr_left ?_
        intro p hp
        rw [if_neg (hdisj p hp q (List.mem_cons_self _ _))]
        rfl
      have hhead : (if q.1 = q.1 then
          (q.1, write_box (A q) b (window_fn b q.2)) else (q.1, A q)) =
          (q.1, write_box (A q) b (window_fn b q.2)) := by
        rw [if_pos rfl]
      have htail : (qs'.map (fun q' => (q'.1, A q'))).map (fun p =>
          if p.1 = q.1 then (p.1, write_box p.2 b (window_fn b q.2)) else p) =
          qs'.map (fun q' => (q'.1, A q')) := by
        rw [List.map_map]
        refine List.map_congr_left ?_
        intro q' hq'
        have hne : q'.1 ≠ q.1 := by
          intro hc
          exact hnd'.1 (by
            rw [← hc]
            exact List.mem_map.mpr ⟨q', hq', rfl⟩)
        simp only [Function.comp]
        rw [if_neg hne]
      rw [hdone, hhead, htail, List.append_assoc]
      rfl
    rw [hmap]
    have := assemble_go_update b qs' A
      (done ++ [(q.1, write_box (A q) b (window_fn b q.2))]) es ?_ hnd'.2
    · rw [this, List.append_assoc]
      rfl
    · intro p hp q' hq'
      rcases List.mem_append.mp hp with hp' | hp'
      · exact hdisj p hp' q' (List.mem_cons_of_mem _ hq')
      · rw [List.mem_singleton] at hp'
        subst hp'
        intro hc
        exact hnd'.1 (by
          rw [hc]
          exact List.mem_map.mpr ⟨q', hq', rfl⟩)

/-- Folding the groups of the remaining boxes over an accumulator that
already holds one entry per name: each name accumulates its section
writes in box order. -/
theorem assemble_go_groups (qs : List (String × ArrFn))
    (hnd : (qs.map Prod.fst).Nodup) :
    ∀ (bs : List (List (Nat × Nat))) (A : (String × ArrFn) → ArrFn),
      assemble_go (qs.map (fun q => (q.1, A q)))
          (bs.flatMap (fun b =>
            qs.map (fun q => ((q.1, b), window_fn b q.2)))) =
        qs.map (fun q => (q.1, bs.foldl
          (fun cur b => write_box cur b (window_fn b q.2)) (A q)))
  | [], A => by simp [assemble_go]
  | b :: bs, A => by
    rw [List.flatMap_cons]
    have h1 := assemble_go_update b qs A []
      (bs.flatMap (fun b' => qs.map (fun q => ((q.1, b'), window_fn b' q.2))))
      (by simp) hnd
    simp only [List.nil_append] at h1
    rw [h1, assemble_go_groups qs hnd bs
      (fun q => write_box (A q) b (window_fn b q.2))]
    simp [List.foldl_cons]

/-- The complete reassembly: starting from an empty accumulator and the
entries of all boxes, each name ends up with all its section writes
folded in box order over a fresh array. -/
theorem assemble_go_all (qs : List (String × ArrFn))
    (hnd : (qs.map Prod.fst).Nodup) (b : List (Nat × Nat))
    (bs : List (List (Nat × Nat))) :
    assemble_go []
        ((b :: bs).flatMap (fun b' =>
          qs.map (fun q => ((q.1, b'), window_fn b' q.2)))) =
      qs.map (fun q => (q.1, bs.foldl
        (fun cur b' => write_box cur b' (window_fn b' q.2))
        (write_box (fun _ => 0) b (window_fn b q.2)))) := by
  rw [List.flatMap_cons]
  have h1 := assemble_go_new b qs []
    (bs.flatMap (fun b' => qs.map (fun q => ((q.1, b'), window_fn b' q.2))))
    (by simp) hnd
  simp only [List.nil_append] at h1
  rw [h1, assemble_go_groups qs hnd bs
    (fun q => write_box (fun _ => 0) b (window_fn b q.2))]

/-- The ancillary outputs assembled from the kernel grid correspond, name
for name and on every in-shape index value for value, to the reducer's
full-input ancillary outputs — for any windowing-commuting reducer
whose ancillary names are distinct. -/
theorem windowed_others_canonical (f : Reducer) (xs : List ArrFn)
    (kernel shape : List Nat) (hloc : LocalReducer f xs)
    (hnd : ((f xs).others.map Prod.fst).Nodup)
    (hdiv : divides_shape kernel shape = true) :
    List.Forall₂ (fun p q => p.1 = q.1 ∧
        ∀ idx, in_shape idx shape = true → p.2 idx = q.2 idx)
      (windowed_operation f xs kernel shape).2 ((f xs).others) := by
  have hentries : other_entries f xs (generate_boxes shape kernel) =
      (generate_boxes shape kernel).flatMap (fun b =>
        (f xs).others.map (fun q => ((q.1, b), window_fn b q.2))) := by
    unfold other_entries
    refine congrArg _ ?_
    funext b
    rw [(hloc b).2, List.map_map]
    rfl
  obtain ⟨b, bs, hbx⟩ : ∃ b bs, generate_boxes shape kernel = b :: bs := by
    cases hgb : generate_boxes shape kernel
    · exact absurd hgb (generate_boxes_ne_nil hdiv)
    · exact ⟨_, _, rfl⟩
  by_cases hlen : 1 < (generate_boxes shape kernel).length
  · obtain ⟨b2, bs2, rfl⟩ : ∃ b2 bs2, bs = b2 :: bs2 := by
      cases bs with
      | nil =>
        rw [hbx] at hlen
        simp at hlen
      | cons b2 bs2 => exact ⟨_, _, rfl⟩
    have hwo : (windowed_operation f xs kernel shape).2 =
        assemble_go [] (other_entries f xs (generate_boxes shape kernel)) := by
      show windowed_others f xs (generate_boxes shape kernel) = _
      rw [hbx]
      rfl
    rw [hwo, hentries, hbx, assemble_go_all _ hnd b (b2 :: bs2)]
    rw [List.forall₂_map_left_iff, List.forall₂_same]
    intro q _
    refine ⟨rfl, ?_⟩
    intro idx hin
    obtain ⟨hmem, hinb, huniq⟩ := cover_box_spec shape idx kernel hdiv hin
    rw [hbx] at hmem huniq
    show (b :: b2 :: bs2).foldl
        (fun cur b' => write_box cur b' (window_fn b' q.2)) (fun _ => 0) idx =
      q.2 idx
    rw [foldl_write_unique (fun b' => window_fn b' q.2)
      (cover_box idx kernel) _ _ hmem hinb huniq, window_fn,
      box_add_rel idx _ hinb]
  · have hone : generate_boxes shape kernel = [b] := by
      rw [hbx]
      rw [hbx, List.length_cons] at hlen
      have hnil : bs = [] := List.eq_nil_of_length_eq_zero (by omega)
      rw [hnil]
    have hwo : (windowed_operation f xs kernel shape).2 =
        (f (xs.map (window_fn b))).others := by
      show windowed_others f xs (generate_boxes shape kernel) = _
      rw [hone]
      rfl
    rw [hwo, (hloc b).2, List.forall₂_map_left_iff, List.forall₂_same]
    intro q _
    refine ⟨rfl, ?_⟩
    intro idx hin
    have hzero : b = kernel.map (fun k => (0, k)) := by
      have hcmem : cover_box (shape.map (fun _ => 0)) kernel ∈
          generate_boxes shape kernel :=
        (cover_box_spec shape _ kernel hdiv (zeros_in_shape hdiv)).1
      rw [hone, List.mem_singleton] at hcmem
      rw [← hcmem, cover_box_zeros hdiv]
    rw [hzero]
    show q.2 (List.zipWith _ (kernel.map fun k => ((0 : Nat), k)) idx) = _
    refine window_fn_zero_starts kernel idx q.2 ?_
    rw [divides_shape_length hdiv, ← in_shape_length hin]

set_option maxHeartbeats 800000 in
/-- C9, amended.  For inputs embedded as index functions, a reducer that
commutes with windowing (its output on windowed inputs is the window
of its output on the full inputs, for the primary data and every
ancillary output) and whose ancillary names are distinct, and a
kernel whose entries are positive and exactly divide the (positive)
shape entries: the windowed reduction over the kernel grid produces,
on every in-shape index, the same primary data and (name for name)
the same ancillary outputs as the reduction over a single
full-shape box. -/
theorem c9_windowed_chunking_amended (f : Reducer) (xs : List ArrFn)
    (kernel shape : List Nat) (hloc : LocalReducer f xs)
    (hnd : ((f xs).others.map Prod.fst).Nodup)
    (hdiv : divides_shape kernel shape = true) :
    (∀ idx, in_shape idx shape = true →
      (windowed_operation f xs kernel shape).1 idx =
        (windowed_operation f xs shape shape).1 idx) ∧
      List.Forall₂ (fun p p' => p.1 = p'.1 ∧
          ∀ idx, in_shape idx shape = true → p.2 idx = p'.2 idx)
        (windowed_operation f xs kernel shape).2
        (windowed_operation f xs shape shape).2 := by
  have hdivs := divides_shape_self hdiv
  constructor
  · intro idx hin
    rw [windowed_data_canonical f xs kernel shape hloc hdiv idx hin,
      windowed_data_canonical f xs shape shape hloc hdivs idx hin]
  · have h1 := windowed_others_canonical f xs kernel shape hloc hnd hdiv
    have h2 := windowed_others_canonical f xs shape shape hloc hnd hdivs
    rw [List.forall₂_iff_get] at h1 h2 ⊢
    obtain ⟨l1, v1⟩ := h1
    obtain ⟨l2, v2⟩ := h2
    refine ⟨by rw [l1, l2], ?_⟩
    intro i h₁ h₂
    have hiq : i < ((f xs).others).length := by
      rw [← l1]
      exact h₁
    obtain ⟨hn1, hv1⟩ := v1 i h₁ hiq
    obtain ⟨hn2, hv2⟩ := v2 i h₂ hiq
    refine ⟨hn1.trans hn2.symm, ?_⟩
    intro idx hin
    rw [hv1 idx hin, hv2 idx hin]

/-- C9, witness: the amended theorem evaluated for a pointwise
(windowing-commuting) reducer that also emits one ancillary output,
on a 1-d input of shape `[2]` with kernel `[1]`. -/
theorem c9_windowed_chunking_amended_witness :
    (∀ idx, in_shape idx [2] = true →
      (windowed_operation
          (fun fs => ⟨fun idx => (fs.headD (fun _ => 0)) idx,
            [("S", fun idx => (fs.headD (fun _ => 0)) idx)]⟩)
          [fun idx => if idx = [0] then (5 : Int) else 7] [1] [2]).1 idx =
        (windowed_operation
          (fun fs => ⟨fun idx => (fs.headD (fun _ => 0)) idx,
            [("S", fun idx => (fs.headD (fun _ => 0)) idx)]⟩)
          [fun idx => if idx = [0] then (5 : Int) else 7] [2] [2]).1 idx) ∧
      List.Forall₂ (fun p p' => p.1 = p'.1 ∧
          ∀ idx, in_shape idx [2] = true → p.2 idx = p'.2 idx)
        (windowed_operation
          (fun fs => ⟨fun idx => (fs.headD (fun _ => 0)) idx,
            [("S", fun idx => (fs.headD (fun _ => 0)) idx)]⟩)
          [fun idx => if idx = [0] then (5 : Int) else 7] [1] [2]).2
        (windowed_operation
          (fun fs => ⟨fun idx => (fs.headD (fun _ => 0)) idx,
            [("S", fun idx => (fs.headD (fun _ => 0)) idx)]⟩)
          [fun idx => if idx = [0] then (5 : Int) else 7] [2] [2]).2 :=
  c9_windowed_chunking_amended
    (fun fs => ⟨fun idx => (fs.headD (fun _ => 0)) idx,
      [("S", fun idx => (fs.headD (fun _ => 0)) idx)]⟩)
    [fun idx => if idx = [0] then (5 : Int) else 7] [1] [2]
    (fun _ => ⟨rfl, rfl⟩) (by simp) (by decide)

end Astrodata

